import Mathlib

/-!
Verification of the credit-metered concurrency gateway (text-to-speech
service): a shallow embedding of `store/db.py` (the account ledger),
`core/core.py` (the semaphore registry and the metering gateway), and the
cost computation `len(re.findall(r"\b\S+\b", text))`.
-/

/-! ## Cost computation: `len(re.findall(r"\b\S+\b", text))`

Python's `\w` (word character) is modelled as ASCII alphanumeric or
underscore, `\s` (whitespace) as `Char.isWhitespace`; the claims and the
repository only exercise ASCII input.  A word boundary `\b` holds between
two adjacent positions whose word-character status differs (the position
before the first character and after the last character count as non-word).
-/

/-- Word character, modelling Python's regex `\w` on ASCII input. -/
def isWordChar (c : Char) : Bool := c.isAlphanum || c == '_'

/-- Whitespace character, modelling Python's regex `\s` on ASCII input. -/
def isSpaceChar (c : Char) : Bool := c.isWhitespace

/-- Greedy extent of `\S+` from the current position: the maximal run of
non-whitespace characters. -/
def nonSpaceRun (l : List Char) : List Char := l.takeWhile (fun c => !isSpaceChar c)

/-- Backtracking of the trailing `\b` after a greedy `\S+` over the run `r`
(the character following `r` is whitespace or end of input, hence non-word):
the regex engine shortens the match to the largest length `k ≥ 1` at which a
word boundary holds.  Inside the run a boundary at `k` needs
`isWordChar r[k-1] ≠ isWordChar r[k]`, and at `k = r.length` it needs
`isWordChar r[k-1]`; the largest such `k` is one past the last word character
of the run, and no `k` exists when the run has no word character. -/
def backtrackEnd : List Char → Option Nat
  | [] => none
  | c :: rest =>
    match backtrackEnd rest with
    | some k => some (k + 1)
    | none => if isWordChar c then some 1 else none

/-- One left-to-right scan of `re.findall(r"\b\S+\b", s)`, counting matches.
`prevW` is the word-character status of the character just before the current
position (`false` at the start of the input).  At each position the engine
attempts a match: the leading `\b` requires `prevW ≠ isWordChar c`, the
greedy `\S+` takes the non-space run, and the trailing `\b` backtracks to
`backtrackEnd`.  On success the scan resumes after the match (whose last
character is a word character); on failure it advances one character.  `fuel`
bounds the recursion; one character is consumed per step, so `fuel = length`
suffices. -/
def scanCount : Nat → Bool → List Char → Nat
  | 0, _, _ => 0
  | _ + 1, _, [] => 0
  | fuel + 1, prevW, c :: rest =>
    if isSpaceChar c then scanCount fuel false rest
    else if prevW = isWordChar c then scanCount fuel (isWordChar c) rest
    else
      match backtrackEnd (nonSpaceRun (c :: rest)) with
      | some k => 1 + scanCount fuel true ((c :: rest).drop k)
      | none => scanCount fuel (isWordChar c) rest

/-- The gateway's cost of a text: `len(re.findall(r"\b\S+\b", text))`
(`core/core.py`, line 132, with `re_pattern` set in `App.__init__`). -/
def reFindallCount (l : List Char) : Nat := scanCount l.length false l

/-- Modelled from the spec's words (for comparison with `reFindallCount`):
count of maximal whitespace-delimited non-empty tokens.  `inTok` records
whether the previous character belonged to a token. -/
def specTokenCountAux : Bool → List Char → Nat
  | _, [] => 0
  | inTok, c :: rest =>
    if isSpaceChar c then specTokenCountAux false rest
    else if inTok then specTokenCountAux true rest
    else 1 + specTokenCountAux true rest

/-- Count of maximal whitespace-delimited non-empty tokens (the spec's
tokenization, stated for comparison with the code's `reFindallCount`). -/
def specTokenCount (l : List Char) : Nat := specTokenCountAux false l

/-- Count of maximal whitespace-delimited tokens that contain at least one
word character.  `counted` records whether the current token has already been
counted. -/
def wordRunCount : Bool → List Char → Nat
  | _, [] => 0
  | counted, c :: rest =>
    if isSpaceChar c then wordRunCount false rest
    else if counted then wordRunCount true rest
    else if isWordChar c then 1 + wordRunCount true rest
    else wordRunCount false rest

/-- The leading non-space run of `l` contains no word character. -/
def noWordRun (l : List Char) : Bool :=
  (l.takeWhile (fun c => !isSpaceChar c)).all (fun c => !isWordChar c)

/-! ## Association lists, modelling Python dictionaries -/

/-- Python `dict` lookup (`d.get(k)` / `k in d`): first entry with the key. -/
def alookup {β : Type} : List (String × β) → String → Option β
  | [], _ => none
  | p :: rest, u => if p.1 = u then some p.2 else alookup rest u

/-- Python `dict` in-place update of an existing key: replace the first entry
with the key, leave the list unchanged when the key is absent. -/
def aupdate {β : Type} : List (String × β) → String → β → List (String × β)
  | [], _, _ => []
  | p :: rest, u, b => if p.1 = u then (u, b) :: rest else p :: aupdate rest u b

/-! ## The account ledger: `store/db.py` -/

/-- User record (`UsersDict` in `store/db.py`): available credits, credits
currently reserved, and the password. -/
structure UsersDict where
  credits : Int
  reserved : Int
  password : String
deriving DecidableEq, Repr

/-- Outcomes of a failed database operation.  `userDoesNotExist` and
`creditsErr` model the dedicated `UserDoesNotExistException` and
`CreditsException`; `noneTypeCrash` models the uncaught Python `TypeError`
raised when `self.users.get(username)` returns `None` and is subscripted. -/
inductive DbError where
  | userDoesNotExist (msg : String)
  | creditsErr (msg : String)
  | noneTypeCrash
deriving DecidableEq, Repr

/-- The ledger (`Database` in `store/db.py`): a username-keyed map of user
records.  The `asyncio.Lock` serializes the operations; in this sequential
embedding each operation is a single atomic state transformation. -/
structure Database where
  users : List (String × UsersDict)
deriving DecidableEq, Repr

/-- The seeded initial ledger (`Database.__init__`). -/
def Database.init : Database :=
  ⟨[("robert", ⟨69, 0, "robertHeslo"⟩),
    ("karel", ⟨1, 0, "karlovHeslo"⟩),
    ("oliver", ⟨20000, 0, "oliverHeslo"⟩),
    ("blanka", ⟨0, 0, "blankaHeslo"⟩)]⟩

/-- Replace the record stored for `username` (in-place mutation of
`self.users[username]` in Python). -/
def Database.update (db : Database) (username : String) (d : UsersDict) : Database :=
  ⟨aupdate db.users username d⟩

/-- The ledger's `get_password`: the stored password, or
`UserDoesNotExistException` for an unknown username. -/
def Database.get_password (db : Database) (username : String) : Except DbError String :=
  match alookup db.users username with
  | some user => .ok user.password
  | none => .error (.userDoesNotExist s!"username {username} not found")

/-- The ledger's `reserve`: fails with `UserDoesNotExistException` for an
unknown username, fails with `CreditsException` when
`credits - reserved < amount`, and otherwise adds `amount` to `reserved`. -/
def Database.reserve (db : Database) (username : String) (amount : Int) :
    Except DbError Database :=
  match alookup db.users username with
  | none => .error (.userDoesNotExist s!"Username {username} not found")
  | some user =>
    if user.credits - user.reserved < amount then
      .error (.creditsErr s!"User {username} has less credits than required {amount}")
    else
      .ok (db.update username { user with reserved := user.reserved + amount })

/-- The ledger's `unreserve`: `self.users.get(username)` followed by an
unguarded `user["reserved"] -= amount`; an unknown username yields `None`
and the subscript crashes with a `TypeError`. -/
def Database.unreserve (db : Database) (username : String) (amount : Int) :
    Except DbError Database :=
  match alookup db.users username with
  | none => .error .noneTypeCrash
  | some user => .ok (db.update username { user with reserved := user.reserved - amount })

/-- The ledger's `pay`: `reserved -= amount; credits -= amount` under the
lock; an unknown username crashes on the `None` subscript as in
`unreserve`. -/
def Database.pay (db : Database) (username : String) (amount : Int) :
    Except DbError Database :=
  match alookup db.users username with
  | none => .error .noneTypeCrash
  | some user =>
    .ok (db.update username
      { user with reserved := user.reserved - amount, credits := user.credits - amount })

/-! ## The semaphore registry: `Semaphores` in `core/core.py`

An `asyncio.Semaphore` is identified by its entry in the registry; its state
is the number of currently available permits (capacity 3 when created).
-/

/-- The semaphore registry: a username-keyed map from principal to the
available-permit count of that principal's semaphore. -/
structure Semaphores where
  semaphores : List (String × Nat)
deriving DecidableEq, Repr

/-- The registry's `get`: return the recorded semaphore for `name`, or
create one with capacity 3 and record it.  The result pairs the returned
semaphore's available-permit count with the resulting registry. -/
def Semaphores.get (s : Semaphores) (name : String) : Nat × Semaphores :=
  match alookup s.semaphores name with
  | some v => (v, s)
  | none => (3, ⟨(name, 3) :: s.semaphores⟩)

/-- Release one permit of `name`'s semaphore (exit of `async with`). -/
def semRelease (s : Semaphores) (name : String) : Semaphores :=
  ⟨aupdate s.semaphores name ((alookup s.semaphores name).getD 0 + 1)⟩

/-! ## The metering gateway: `App.text_to_speech` in `core/core.py` -/

/-- The external collaborator's response (`requests.Response` as used by the
gateway): HTTP status, diagnostic body text, and the chunk sequence produced
by `iter_content(chunk_size=1024)`. -/
structure ExtResponse where
  status_code : Nat
  text : String
  chunks : List (List UInt8)
deriving DecidableEq

/-- Ghost event trace of the collaborator calls the gateway makes, in
program order. -/
inductive GatewayEvent where
  | reserveCall (username : String) (amount : Int)
  | externalCall (text : String)
  | unreserveCall (username : String) (amount : Int)
  | payCall (username : String) (amount : Int)
deriving DecidableEq, Repr

/-- Errors surfaced by `text_to_speech`: a propagated database exception or
an `ElevenLabsException`. -/
inductive AppError where
  | db (e : DbError)
  | elevenLabs (msg : String)
deriving DecidableEq, Repr

/-- Outcome of one `text_to_speech` call.  `blocked` marks the case where
`async with semaphore` would suspend because no permit is available (in this
sequential embedding such a call never resumes). -/
inductive TtsOutcome where
  | ok (filename : String) (chunks : List (List UInt8))
  | raised (e : AppError)
  | blocked
deriving DecidableEq

/-- Result of one `text_to_speech` call: the outcome, the final ledger, the
final semaphore registry, and the ghost trace of collaborator calls. -/
structure TtsResult where
  outcome : TtsOutcome
  db : Database
  sems : Semaphores
  calls : List GatewayEvent
deriving DecidableEq

/-- The `ElevenLabsException` message built by the gateway. -/
def elevenLabsMsg (text errText : String) : String :=
  s!"Error while processing text: {text}, error: {errText}"

/-- The ten random lowercase characters of a generated filename
(`random.choice(string.ascii_lowercase)` ten times); `rng i` is the letter
index chosen at step `i`. -/
def filenameChars (rng : Nat → Fin 26) : List Char :=
  (List.range 10).map fun i => Char.ofNat ('a'.toNat + (rng i).val)

/-- The generated filename: ten random lowercase characters followed by the
fixed `.mp3` extension. -/
def genFilename (rng : Nat → Fin 26) : String :=
  String.mk (filenameChars rng ++ ".mp3".data)

/-- The gateway's `text_to_speech` (`core/core.py`, lines 115–144) as one
sequential state transformation.  The external call's response is the `resp`
argument and the random generator is `rng`; `await asyncio.sleep(2)` is a
no-op here.  Every exit path releases the acquired permit, as `async with
semaphore` does. -/
def App.text_to_speech (db : Database) (sems : Semaphores) (username text : String)
    (resp : ExtResponse) (rng : Nat → Fin 26) : TtsResult :=
  let g := Semaphores.get sems username
  let sems1 := g.2
  if g.1 = 0 then
    { outcome := .blocked, db := db, sems := sems1, calls := [] }
  else
    let semsAcq : Semaphores := ⟨aupdate sems1.semaphores username (g.1 - 1)⟩
    let credits : Int := (reFindallCount text.data : Int)
    match Database.reserve db username credits with
    | .error e =>
      { outcome := .raised (.db e), db := db, sems := semRelease semsAcq username,
        calls := [.reserveCall username credits] }
    | .ok db1 =>
      if resp.status_code ≠ 200 then
        match Database.unreserve db1 username credits with
        | .error e =>
          { outcome := .raised (.db e), db := db1, sems := semRelease semsAcq username,
            calls := [.reserveCall username credits, .externalCall text,
                      .unreserveCall username credits] }
        | .ok db2 =>
          let errText := resp.text
          { outcome := .raised (.elevenLabs (elevenLabsMsg text errText)), db := db2,
            sems := semRelease semsAcq username,
            calls := [.reserveCall username credits, .externalCall text,
                      .unreserveCall username credits] }
      else
        let filename := genFilename rng
        match Database.pay db1 username credits with
        | .error e =>
          { outcome := .raised (.db e), db := db1, sems := semRelease semsAcq username,
            calls := [.reserveCall username credits, .externalCall text,
                      .payCall username credits] }
        | .ok db2 =>
          { outcome := .ok filename resp.chunks, db := db2,
            sems := semRelease semsAcq username,
            calls := [.reserveCall username credits, .externalCall text,
                      .payCall username credits] }

/-! ## Reachability of ledger states

`RawStep` is the literal reading of "reachable through the ledger's
operations": any successful `reserve`, `unreserve` or `pay` with any amount.
`ProtoStep` additionally carries the gateway's usage protocol: reserved
amounts are non-negative, and each `unreserve`/`pay` resolves exactly one
outstanding reserved amount.
-/

/-- One successful ledger operation, with an arbitrary amount. -/
inductive RawStep : Database → Database → Prop
  | reserveS {db db' : Database} {u : String} {a : Int}
      (h : Database.reserve db u a = .ok db') : RawStep db db'
  | unreserveS {db db' : Database} {u : String} {a : Int}
      (h : Database.unreserve db u a = .ok db') : RawStep db db'
  | payS {db db' : Database} {u : String} {a : Int}
      (h : Database.pay db u a = .ok db') : RawStep db db'

/-- Ledger states reachable from the seeded initial state through arbitrary
successful ledger operations. -/
inductive RawReachable : Database → Prop
  | init : RawReachable Database.init
  | step {db db' : Database} (hr : RawReachable db) (hs : RawStep db db') :
      RawReachable db'

/-- The ledger state produced by `unreserve("robert", 1)` from the seeded
initial state: robert's `reserved` becomes `-1`. -/
def dbAfterBadUnreserve : Database :=
  ⟨[("robert", ⟨69, -1, "robertHeslo"⟩),
    ("karel", ⟨1, 0, "karlovHeslo"⟩),
    ("oliver", ⟨20000, 0, "oliverHeslo"⟩),
    ("blanka", ⟨0, 0, "blankaHeslo"⟩)]⟩

/-- Sum of the outstanding reserved amounts recorded for `u`. -/
def sumFor : List (String × Int) → String → Int
  | [], _ => 0
  | p :: rest, u => (if p.1 = u then p.2 else 0) + sumFor rest u

/-- One ledger operation as the gateway uses it: `reserve` pushes a
non-negative outstanding amount, and `unreserve`/`pay` each resolve one
outstanding amount previously reserved for the same principal. -/
inductive ProtoStep : Database × List (String × Int) → Database × List (String × Int) → Prop
  | reserveS {db db' : Database} {out : List (String × Int)} {u : String} {a : Int}
      (ha : 0 ≤ a) (h : Database.reserve db u a = .ok db') :
      ProtoStep (db, out) (db', (u, a) :: out)
  | unreserveS {db db' : Database} {l₁ l₂ : List (String × Int)} {u : String} {a : Int}
      (h : Database.unreserve db u a = .ok db') :
      ProtoStep (db, l₁ ++ (u, a) :: l₂) (db', l₁ ++ l₂)
  | payS {db db' : Database} {l₁ l₂ : List (String × Int)} {u : String} {a : Int}
      (h : Database.pay db u a = .ok db') :
      ProtoStep (db, l₁ ++ (u, a) :: l₂) (db', l₁ ++ l₂)

/-- Ledger states (with their outstanding reservations) reachable from the
seeded initial state through protocol-respecting ledger operations. -/
inductive ProtoReachable : Database × List (String × Int) → Prop
  | init : ProtoReachable (Database.init, [])
  | step {s s' : Database × List (String × Int)}
      (hr : ProtoReachable s) (hs : ProtoStep s s') : ProtoReachable s'

/-! ## The per-principal permit discipline: `asyncio.Semaphore(3)`

A transition system for one principal's semaphore and a set of
`text_to_speech` requests: each request is `pending` (before the permit is
acquired), `inFlight` (past the permit-acquired point, before release) or
`done`.  `acquire` needs an available permit and consumes it; `release`
returns it.  This models `async with semaphore` around the gateway body.
-/

/-- Phase of one request with respect to the permit. -/
inductive Phase where
  | pending
  | inFlight
  | done
deriving DecidableEq, Repr

/-- State of one principal's semaphore system: available permits and the
phase of each request. -/
structure SemState where
  avail : Nat
  phases : List Phase
deriving DecidableEq, Repr

/-- Initial state: the freshly created `asyncio.Semaphore(3)` and `n`
requests that have not yet acquired a permit. -/
def SemState.start (n : Nat) : SemState := ⟨3, List.replicate n Phase.pending⟩

/-- Number of requests currently past the permit-acquired point and before
permit release. -/
def countInFlight (s : SemState) : Nat := s.phases.countP (fun p => p == Phase.inFlight)

/-- One scheduler step: a pending request acquires a permit (possible only
when a permit is available), or an in-flight request finishes and releases
its permit. -/
inductive SemStep : SemState → SemState → Prop
  | acquire {s : SemState} {i : Nat} (h : s.phases.get? i = some Phase.pending)
      (ha : 0 < s.avail) : SemStep s ⟨s.avail - 1, s.phases.set i Phase.inFlight⟩
  | release {s : SemState} {i : Nat} (h : s.phases.get? i = some Phase.inFlight) :
      SemStep s ⟨s.avail + 1, s.phases.set i Phase.done⟩

/-- States reachable from `SemState.start n` through scheduler steps. -/
inductive SemReachable (n : Nat) : SemState → Prop
  | init : SemReachable n (SemState.start n)
  | step {s s' : SemState} (hr : SemReachable n s) (hs : SemStep s s') : SemReachable n s'

/-- Inductive invariant for protocol-respecting ledger states: every stored
record satisfies `0 ≤ reserved ≤ credits`, each record's `reserved` equals
the sum of its outstanding reserved amounts, and every outstanding amount is
non-negative. -/
def LedgerInv (db : Database) (out : List (String × Int)) : Prop :=
  (∀ u rec, alookup db.users u = some rec →
    0 ≤ rec.reserved ∧ rec.reserved ≤ rec.credits ∧ rec.reserved = sumFor out u)
  ∧ (∀ p ∈ out, 0 ≤ p.2)

/-! ## Association-list lemmas -/

theorem alookup_aupdate_self {β : Type} (l : List (String × β)) (u : String) (x : β)
    (v : β) (h : alookup l u = some v) : alookup (aupdate l u x) u = some x := by
  induction l with
  | nil => simp [alookup] at h
  | cons p rest ih =>
    by_cases hp : p.1 = u
    · simp [alookup, aupdate, hp]
    · simp only [alookup, aupdate, if_neg hp] at h ⊢
      exact ih h

theorem alookup_aupdate_ne {β : Type} (l : List (String × β)) (u w : String) (x : β)
    (hne : w ≠ u) : alookup (aupdate l u x) w = alookup l w := by
  induction l with
  | nil => simp [alookup, aupdate]
  | cons p rest ih =>
    by_cases hp : p.1 = u
    · have : ¬ (u = w) := fun h => hne h.symm
      simp [alookup, aupdate, hp, this]
    · simp only [alookup, aupdate, if_neg hp]
      by_cases hw : p.1 = w
      · simp [hw]
      · simp [hw, ih]

theorem aupdate_aupdate {β : Type} (l : List (String × β)) (u : String) (x y : β) :
    aupdate (aupdate l u x) u y = aupdate l u y := by
  induction l with
  | nil => simp [aupdate]
  | cons p rest ih =>
    by_cases hp : p.1 = u
    · simp [aupdate, hp]
    · simp [aupdate, hp, ih]

theorem aupdate_self {β : Type} (l : List (String × β)) (u : String) (v : β)
    (h : alookup l u = some v) : aupdate l u v = l := by
  induction l with
  | nil => simp [aupdate]
  | cons p rest ih =>
    obtain ⟨p1, p2⟩ := p
    by_cases hp : p1 = u
    · subst hp
      simp only [alookup, if_pos rfl] at h
      injection h with h2
      subst h2
      simp [aupdate]
    · simp only [alookup, if_neg hp] at h
      simp only [aupdate, if_neg hp]
      rw [ih h]

theorem alookup_mem {β : Type} (l : List (String × β)) (u : String) (v : β)
    (h : alookup l u = some v) : (u, v) ∈ l := by
  induction l with
  | nil => simp [alookup] at h
  | cons p rest ih =>
    obtain ⟨p1, p2⟩ := p
    by_cases hp : p1 = u
    · subst hp
      simp only [alookup, if_pos rfl] at h
      injection h with h2
      subst h2
      exact List.mem_cons_self _ _
    · simp only [alookup] at h
      rw [if_neg hp] at h
      exact List.mem_cons_of_mem _ (ih h)

/-! ## C1: the ledger's reserve operation -/

/-- C1: `Database.reserve` succeeds if and only if the principal exists and
`balance - reserved ≥ amount`; on success it adds exactly `amount` to
`reserved` and leaves `credits` unchanged; it fails with `CreditsException`
on a shortfall and with `UserDoesNotExistException` for an unknown
principal. -/
theorem reserve_correct (db : Database) (u : String) (a : Int) :
    (alookup db.users u = none →
      Database.reserve db u a = .error (.userDoesNotExist s!"Username {u} not found"))
  ∧ (∀ user, alookup db.users u = some user → user.credits - user.reserved < a →
      Database.reserve db u a
        = .error (.creditsErr s!"User {u} has less credits than required {a}"))
  ∧ (∀ user, alookup db.users u = some user → a ≤ user.credits - user.reserved →
      Database.reserve db u a
          = .ok (db.update u { user with reserved := user.reserved + a })
      ∧ alookup (db.update u { user with reserved := user.reserved + a }).users u
          = some { user with reserved := user.reserved + a })
  ∧ ((∃ db', Database.reserve db u a = .ok db') ↔
      ∃ user, alookup db.users u = some user ∧ a ≤ user.credits - user.reserved) := by
  refine ⟨?_, ?_, ?_, ?_⟩
  · intro h
    simp [Database.reserve, h]
  · intro user h hlt
    simp [Database.reserve, h, hlt]
  · intro user h hle
    have hnlt : ¬ (user.credits - user.reserved < a) := not_lt.mpr hle
    exact ⟨by simp [Database.reserve, h, hnlt],
      alookup_aupdate_self db.users u _ user h⟩
  · constructor
    · rintro ⟨db', hdb⟩
      cases hcase : alookup db.users u with
      | none => simp [Database.reserve, hcase] at hdb
      | some user =>
        by_cases hlt : user.credits - user.reserved < a
        · simp [Database.reserve, hcase, hlt] at hdb
        · exact ⟨user, rfl, not_lt.mp hlt⟩
    · rintro ⟨user, h, hle⟩
      refine ⟨db.update u { user with reserved := user.reserved + a }, ?_⟩
      simp [Database.reserve, h, not_lt.mpr hle]

/-- Witness for `reserve_correct`: concrete success for robert (69 credits,
reserving 2) and concrete `CreditsException` for karel (1 credit,
reserving 2). -/
theorem reserve_correct_witness :
    Database.reserve Database.init "robert" 2
      = .ok (Database.init.update "robert" ⟨69, 2, "robertHeslo"⟩)
  ∧ Database.reserve Database.init "karel" 2
      = .error (.creditsErr "User karel has less credits than required 2") := by
  constructor
  · exact ((reserve_correct Database.init "robert" 2).2.2.1
      ⟨69, 0, "robertHeslo"⟩ (by decide) (by decide)).1
  · exact (reserve_correct Database.init "karel" 2).2.1
      ⟨1, 0, "karlovHeslo"⟩ (by decide) (by decide)

/-! ## C10: unreserve and pay on an unknown principal -/

/-- C10: for a principal absent from the ledger, `unreserve` and `pay`
neither succeed nor raise `UserDoesNotExistException` — the `dict.get`
returns `None` and the subscript crashes — unlike `reserve` and
`get_password`, which raise `UserDoesNotExistException`. -/
theorem unreserve_pay_missing_user_crash (db : Database) (u : String) (a : Int)
    (h : alookup db.users u = none) :
    Database.unreserve db u a = .error .noneTypeCrash
  ∧ Database.pay db u a = .error .noneTypeCrash
  ∧ (∀ db', Database.unreserve db u a ≠ .ok db')
  ∧ (∀ db', Database.pay db u a ≠ .ok db')
  ∧ (∀ m, Database.unreserve db u a ≠ .error (.userDoesNotExist m))
  ∧ (∀ m, Database.pay db u a ≠ .error (.userDoesNotExist m))
  ∧ Database.reserve db u a = .error (.userDoesNotExist s!"Username {u} not found")
  ∧ Database.get_password db u = .error (.userDoesNotExist s!"username {u} not found") := by
  refine ⟨by simp [Database.unreserve, h], by simp [Database.pay, h], ?_, ?_, ?_, ?_,
    by simp [Database.reserve, h], by simp [Database.get_password, h]⟩ <;>
    intro x <;> simp [Database.unreserve, Database.pay, h]

/-- Witness for `unreserve_pay_missing_user_crash` at the unknown principal
`nobody` in the seeded ledger. -/
theorem unreserve_pay_missing_user_crash_witness :
    Database.unreserve Database.init "nobody" 5 = .error .noneTypeCrash
  ∧ Database.pay Database.init "nobody" 5 = .error .noneTypeCrash
  ∧ Database.reserve Database.init "nobody" 5
      = .error (.userDoesNotExist "Username nobody not found") := by
  have h := unreserve_pay_missing_user_crash Database.init "nobody" 5 (by decide)
  exact ⟨h.1, h.2.1, h.2.2.2.2.2.2.1⟩

/-! ## C8: the semaphore registry's get-or-create -/

/-- C8: `Semaphores.get` returns the recorded semaphore when one exists for
the principal, and otherwise creates one with capacity 3 and records it; a
second `get` for the same principal therefore returns the same semaphore and
leaves the registry unchanged. -/
theorem semaphores_get_or_create (s : Semaphores) (name : String) :
    (∀ v, alookup s.semaphores name = some v → Semaphores.get s name = (v, s))
  ∧ (alookup s.semaphores name = none →
      Semaphores.get s name = (3, ⟨(name, 3) :: s.semaphores⟩))
  ∧ Semaphores.get (Semaphores.get s name).2 name
      = ((Semaphores.get s name).1, (Semaphores.get s name).2) := by
  refine ⟨?_, ?_, ?_⟩
  · intro v h
    simp [Semaphores.get, h]
  · intro h
    simp [Semaphores.get, h]
  · cases h : alookup s.semaphores name with
    | some v => simp [Semaphores.get, h]
    | none => simp [Semaphores.get, h, alookup]

/-- Witness for `semaphores_get_or_create`: first `get` on an empty registry
creates a capacity-3 semaphore for robert; a repeated `get` returns it
unchanged. -/
theorem semaphores_get_or_create_witness :
    Semaphores.get ⟨[]⟩ "robert" = (3, ⟨[("robert", 3)]⟩)
  ∧ Semaphores.get (Semaphores.get ⟨[]⟩ "robert").2 "robert"
      = ((Semaphores.get ⟨[]⟩ "robert").1, (Semaphores.get ⟨[]⟩ "robert").2) := by
  exact ⟨(semaphores_get_or_create ⟨[]⟩ "robert").2.1 (by decide),
    (semaphores_get_or_create ⟨[]⟩ "robert").2.2⟩

/-! ## C3: lemmas about the cost scanner -/

theorem backtrackEnd_none_all (r : List Char) (h : backtrackEnd r = none) :
    ∀ c ∈ r, isWordChar c = false := by
  induction r with
  | nil => simp
  | cons c rest ih =>
    intro d hd
    cases hbt : backtrackEnd rest with
    | some k => simp [backtrackEnd, hbt] at h
    | none =>
      simp only [backtrackEnd, hbt] at h
      rcases List.mem_cons.mp hd with rfl | hd'
      · by_cases hw : isWordChar d
        · rw [if_pos hw] at h
          exact absurd h (by simp)
        · simpa using hw
      · exact ih hbt d hd'

theorem backtrackEnd_all_none (r : List Char) (h : ∀ c ∈ r, isWordChar c = false) :
    backtrackEnd r = none := by
  induction r with
  | nil => rfl
  | cons c rest ih =>
    have h1 : backtrackEnd rest = none := ih (fun d hd => h d (List.mem_cons_of_mem _ hd))
    simp [backtrackEnd, h1, h c (List.mem_cons_self _ _)]

theorem backtrackEnd_bounds (r : List Char) (k : Nat) (h : backtrackEnd r = some k) :
    1 ≤ k ∧ k ≤ r.length ∧ ∀ c ∈ r.drop k, isWordChar c = false := by
  induction r generalizing k with
  | nil => simp [backtrackEnd] at h
  | cons c rest ih =>
    cases hbt : backtrackEnd rest with
    | some k' =>
      simp only [backtrackEnd, hbt] at h
      injection h with hk
      subst hk
      obtain ⟨h1, h2, h3⟩ := ih k' hbt
      refine ⟨by omega, by simp; omega, ?_⟩
      rw [List.drop_succ_cons]
      exact h3
    | none =>
      simp only [backtrackEnd, hbt] at h
      by_cases hw : isWordChar c
      · rw [if_pos hw] at h
        injection h with hk
        subst hk
        refine ⟨le_refl 1, by simp, ?_⟩
        rw [List.drop_succ_cons, List.drop_zero]
        exact backtrackEnd_none_all rest hbt
      · rw [if_neg hw] at h
        exact absurd h (by simp)

theorem noWordRun_dropWhile (l : List Char) :
    noWordRun (l.dropWhile (fun c => !isSpaceChar c)) = true := by
  induction l with
  | nil => rfl
  | cons c rest ih =>
    by_cases hs : isSpaceChar c
    · simp [List.dropWhile_cons, noWordRun, List.takeWhile_cons, hs]
    · simp only [List.dropWhile_cons, hs]
      simpa using ih

theorem takeWhile_append_all (p : Char → Bool) (m t : List Char)
    (hm : ∀ c ∈ m, p c = true) : (m ++ t).takeWhile p = m ++ t.takeWhile p := by
  induction m with
  | nil => simp
  | cons c m' ih =>
    rw [List.cons_append, List.takeWhile_cons, if_pos (hm c (List.mem_cons_self _ _)),
      ih (fun d hd => hm d (List.mem_cons_of_mem _ hd)), List.cons_append]

theorem noWordRun_append (m t : List Char) (hm1 : ∀ c ∈ m, isSpaceChar c = false)
    (hm2 : ∀ c ∈ m, isWordChar c = false) (ht : noWordRun t = true) :
    noWordRun (m ++ t) = true := by
  unfold noWordRun at ht ⊢
  rw [takeWhile_append_all _ m t (fun c hc => by simp [hm1 c hc]), List.all_append]
  simp only [Bool.and_eq_true]
  refine ⟨List.all_eq_true.mpr (fun c hc => by simp [hm2 c hc]), ht⟩

theorem wordRunCount_true_append (m t : List Char)
    (hm : ∀ c ∈ m, isSpaceChar c = false) :
    wordRunCount true (m ++ t) = wordRunCount true t := by
  induction m with
  | nil => rfl
  | cons c m' ih =>
    rw [List.cons_append]
    simp only [wordRunCount, hm c (List.mem_cons_self _ _)]
    simp only [Bool.false_eq_true, if_false, if_true]
    exact ih (fun d hd => hm d (List.mem_cons_of_mem _ hd))

theorem noWordRun_head (c : Char) (rest : List Char) (hs : isSpaceChar c = false)
    (h : noWordRun (c :: rest) = true) : isWordChar c = false := by
  unfold noWordRun at h
  rw [List.takeWhile_cons] at h
  simp [hs] at h
  exact h.1

theorem noWordRun_tail (c : Char) (rest : List Char) (hs : isSpaceChar c = false)
    (h : noWordRun (c :: rest) = true) : noWordRun rest = true := by
  unfold noWordRun at h ⊢
  rw [List.takeWhile_cons] at h
  simp [hs] at h
  exact List.all_eq_true.mpr (fun d hd => by simpa using h.2 d hd)

theorem wordRunCount_all_space (counted : Bool) (l : List Char)
    (h : ∀ c ∈ l, isSpaceChar c = true) : wordRunCount counted l = 0 := by
  induction l generalizing counted with
  | nil => rfl
  | cons c rest ih =>
    simp only [wordRunCount, h c (List.mem_cons_self _ _), if_true]
    exact ih false (fun d hd => h d (List.mem_cons_of_mem _ hd))

/-- The central equivalence for the cost scanner, by induction on the fuel:
from a fresh position the scan of `re.findall(r"\b\S+\b", ·)` counts what
`wordRunCount` counts, and when the leading run has no word character a scan
in state `prevW = true` or `prevW = false` produces no match in that run. -/
theorem scan_master (fuel : Nat) :
    (∀ l : List Char, l.length ≤ fuel → scanCount fuel false l = wordRunCount false l)
  ∧ (∀ l : List Char, l.length ≤ fuel → noWordRun l = true →
      scanCount fuel true l = wordRunCount true l)
  ∧ (∀ l : List Char, l.length ≤ fuel → noWordRun l = true →
      scanCount fuel false l = wordRunCount true l) := by
  induction fuel with
  | zero =>
    have hz : ∀ l : List Char, l.length ≤ 0 → l = [] :=
      fun l hl => List.length_eq_zero.mp (Nat.le_zero.mp hl)
    exact ⟨fun l hl => by rw [hz l hl]; rfl,
      fun l hl _ => by rw [hz l hl]; rfl,
      fun l hl _ => by rw [hz l hl]; rfl⟩
  | succ fuel ih =>
    obtain ⟨ihP, ihQ, ihR⟩ := ih
    refine ⟨?_, ?_, ?_⟩
    · intro l hlen
      cases l with
      | nil => rfl
      | cons c rest =>
        have hlen' : rest.length ≤ fuel := by simp at hlen; omega
        by_cases hs : isSpaceChar c
        · simp only [scanCount, wordRunCount, hs, if_true]
          exact ihP rest hlen'
        · have hs' : isSpaceChar c = false := by simpa using hs
          by_cases hw : isWordChar c
          · have hrun : nonSpaceRun (c :: rest)
                = c :: rest.takeWhile (fun d => !isSpaceChar d) := by
              simp [nonSpaceRun, List.takeWhile_cons, hs']
            cases hbt : backtrackEnd (nonSpaceRun (c :: rest)) with
            | none =>
              exfalso
              have hcnone := backtrackEnd_none_all _ hbt c
                (by rw [hrun]; exact List.mem_cons_self _ _)
              rw [hw] at hcnone
              exact Bool.noConfusion hcnone
            | some k =>
              obtain ⟨hk1, hk2, hk3⟩ := backtrackEnd_bounds _ _ hbt
              have hscan : scanCount (fuel + 1) false (c :: rest)
                  = 1 + scanCount fuel true ((c :: rest).drop k) := by
                simp [scanCount, hs', hw, hbt]
              have hcnt : wordRunCount false (c :: rest) = 1 + wordRunCount true rest := by
                simp [wordRunCount, hs', hw]
              rw [hscan, hcnt]
              have hrt : nonSpaceRun (c :: rest)
                    ++ (c :: rest).dropWhile (fun d => !isSpaceChar d) = c :: rest :=
                List.takeWhile_append_dropWhile _ _
              have hdropk : (c :: rest).drop k
                  = (nonSpaceRun (c :: rest)).drop k
                    ++ (c :: rest).dropWhile (fun d => !isSpaceChar d) := by
                conv_lhs => rw [← hrt]
                rw [List.drop_append_eq_append_drop, Nat.sub_eq_zero_of_le hk2,
                  List.drop_zero]
              have hrunspace : ∀ d ∈ (nonSpaceRun (c :: rest)).drop k, isSpaceChar d = false :=
                fun d hd => by
                  have := List.mem_takeWhile_imp (List.mem_of_mem_drop hd)
                  simpa using this
              have hnwdrop : noWordRun ((c :: rest).drop k) = true := by
                rw [hdropk]
                exact noWordRun_append _ _ hrunspace hk3 (noWordRun_dropWhile _)
              have hlendrop : ((c :: rest).drop k).length ≤ fuel := by
                rw [List.length_drop]
                simp at hlen ⊢
                omega
              rw [ihQ _ hlendrop hnwdrop, hdropk,
                wordRunCount_true_append _ _ hrunspace]
              have hrest : rest.takeWhile (fun d => !isSpaceChar d)
                    ++ rest.dropWhile (fun d => !isSpaceChar d) = rest :=
                List.takeWhile_append_dropWhile _ _
              have hdw : (c :: rest).dropWhile (fun d => !isSpaceChar d)
                  = rest.dropWhile (fun d => !isSpaceChar d) := by
                simp [List.dropWhile_cons, hs']
              conv_rhs => rw [← hrest]
              rw [hdw, wordRunCount_true_append _ _
                (fun d hd => by simpa using List.mem_takeWhile_imp hd)]
          · have hw' : isWordChar c = false := by simpa using hw
            have hcond : (false = isWordChar c) := by rw [hw']
            simp only [scanCount, wordRunCount, hs', hw', Bool.false_eq_true, if_false,
              if_pos hcond]
            exact ihP rest hlen'
    · intro l hlen hnw
      cases l with
      | nil => rfl
      | cons c rest =>
        have hlen' : rest.length ≤ fuel := by simp at hlen; omega
        by_cases hs : isSpaceChar c
        · simp only [scanCount, wordRunCount, hs, if_true]
          exact ihP rest hlen'
        · have hs' : isSpaceChar c = false := by simpa using hs
          have hw : isWordChar c = false := noWordRun_head c rest hs' hnw
          have hnw' : noWordRun rest = true := noWordRun_tail c rest hs' hnw
          have hall : ∀ d ∈ nonSpaceRun (c :: rest), isWordChar d = false := by
            have h0 : (nonSpaceRun (c :: rest)).all (fun d => !isWordChar d) = true := hnw
            intro d hd
            simpa using List.all_eq_true.mp h0 d hd
          have hbt : backtrackEnd (nonSpaceRun (c :: rest)) = none :=
            backtrackEnd_all_none _ hall
          have hcond : ¬ (true = isWordChar c) := by rw [hw]; simp
          simp only [scanCount, wordRunCount, hs', hw, Bool.false_eq_true, if_false,
            if_neg hcond, if_true, hbt]
          exact ihR rest hlen' hnw'
    · intro l hlen hnw
      cases l with
      | nil => rfl
      | cons c rest =>
        have hlen' : rest.length ≤ fuel := by simp at hlen; omega
        by_cases hs : isSpaceChar c
        · simp only [scanCount, wordRunCount, hs, if_true]
          exact ihP rest hlen'
        · have hs' : isSpaceChar c = false := by simpa using hs
          have hw : isWordChar c = false := noWordRun_head c rest hs' hnw
          have hnw' : noWordRun rest = true := noWordRun_tail c rest hs' hnw
          have hcond : (false = isWordChar c) := by rw [hw]
          simp only [scanCount, wordRunCount, hs', hw, Bool.false_eq_true, if_false,
            if_pos hcond]
          exact ihR rest hlen' hnw'

/-! ## C3: the cost computation, refuted and amended -/

/-- C3 counterexample: on the input `"!"` the code's cost is 0 while the
count of maximal whitespace-delimited non-empty tokens is 1, so the cost
does not equal the spec's token count. -/
theorem cost_token_count_counterexample :
    reFindallCount "!".data = 0 ∧ specTokenCount "!".data = 1
  ∧ reFindallCount "!".data ≠ specTokenCount "!".data := by
  refine ⟨by decide, by decide, by decide⟩

/-- C3 (amended): the cost is deterministic and equals the count of maximal
whitespace-delimited tokens that contain at least one word character
(alphanumeric or underscore); the cost is non-negative, empty and
whitespace-only input yield 0, and the cost of `"a b  c"` is 3. -/
theorem cost_characterization :
    (∀ l₁ l₂ : List Char, l₁ = l₂ → reFindallCount l₁ = reFindallCount l₂)
  ∧ (∀ l : List Char, reFindallCount l = wordRunCount false l)
  ∧ (∀ l : List Char, 0 ≤ reFindallCount l)
  ∧ (∀ l : List Char, (∀ c ∈ l, isSpaceChar c = true) → reFindallCount l = 0)
  ∧ reFindallCount [] = 0
  ∧ reFindallCount "a b  c".data = 3 := by
  refine ⟨fun l₁ l₂ h => by rw [h], fun l => (scan_master l.length).1 l le_rfl,
    fun l => Nat.zero_le _, ?_, rfl, by decide⟩
  intro l h
  unfold reFindallCount
  rw [(scan_master l.length).1 l le_rfl]
  exact wordRunCount_all_space false l h

/-- Witness for `cost_characterization`: whitespace-only input has cost 0,
and the equivalence instantiated on a concrete mixed input. -/
theorem cost_characterization_witness :
    reFindallCount " \t ".data = 0
  ∧ reFindallCount "a,b !".data = wordRunCount false "a,b !".data := by
  exact ⟨cost_characterization.2.2.2.1 " \t ".data (by decide),
    cost_characterization.2.1 "a,b !".data⟩

/-! ## C9: the per-principal concurrency bound -/

theorem countP_set_acquire (l : List Phase) (i : Nat) (h : l.get? i = some Phase.pending) :
    (l.set i Phase.inFlight).countP (fun p => p == Phase.inFlight)
      = l.countP (fun p => p == Phase.inFlight) + 1 := by
  induction l generalizing i with
  | nil => simp at h
  | cons a l' ih =>
    cases i with
    | zero =>
      simp only [List.get?] at h
      injection h with ha
      subst ha
      simp [List.set, List.countP_cons]
    | succ i' =>
      simp only [List.get?] at h
      simp [List.set, List.countP_cons, ih i' h]
      omega

theorem countP_set_release (l : List Phase) (i : Nat) (h : l.get? i = some Phase.inFlight) :
    (l.set i Phase.done).countP (fun p => p == Phase.inFlight) + 1
      = l.countP (fun p => p == Phase.inFlight) := by
  induction l generalizing i with
  | nil => simp at h
  | cons a l' ih =>
    cases i with
    | zero =>
      simp only [List.get?] at h
      injection h with ha
      subst ha
      simp [List.set, List.countP_cons]
    | succ i' =>
      simp only [List.get?] at h
      have hih := ih i' h
      simp [List.set, List.countP_cons]
      omega

theorem countInFlight_start (n : Nat) : countInFlight (SemState.start n) = 0 := by
  induction n with
  | zero => rfl
  | succ n ih =>
    simp only [countInFlight, SemState.start, List.replicate, List.countP_cons] at ih ⊢
    simp [ih]

/-- Inductive invariant of the permit system: the available permits plus the
requests in flight always total the fixed capacity 3. -/
theorem sem_invariant {n : Nat} {s : SemState} (h : SemReachable n s) :
    s.avail + countInFlight s = 3 := by
  induction h with
  | init =>
    rw [countInFlight_start n]
    simp [SemState.start]
  | step hr hs ih =>
    cases hs with
    | acquire hp ha =>
      simp only [countInFlight] at ih ⊢
      rw [countP_set_acquire _ _ hp]
      omega
    | release hp =>
      have hrel := countP_set_release _ _ hp
      simp only [countInFlight] at ih ⊢
      omega

/-- C9: in every reachable state of a principal's permit system at most 3
requests are simultaneously past the permit-acquired point; when 3 are in
flight no permit is available, so `acquire` (whose guard is `0 < avail`)
cannot fire and a 4th request waits until one of the 3 releases; the bound
also holds after any further step. -/
theorem semaphore_bound (n : Nat) (s : SemState) (h : SemReachable n s) :
    countInFlight s ≤ 3
  ∧ (countInFlight s = 3 → s.avail = 0)
  ∧ (∀ s', SemStep s s' → countInFlight s' ≤ 3) := by
  have hi := sem_invariant h
  refine ⟨by omega, by omega, ?_⟩
  intro s' hs'
  have hi' := sem_invariant (SemReachable.step h hs')
  omega

/-- Witness for `semaphore_bound`: the initial state of six concurrent
requests (the repository's own test scenario), and the state after one
acquire step. -/
theorem semaphore_bound_witness :
    countInFlight (SemState.start 6) ≤ 3
  ∧ (countInFlight (SemState.start 6) = 3 → (SemState.start 6).avail = 0) := by
  have h := semaphore_bound 6 (SemState.start 6) SemReachable.init
  exact ⟨h.1, h.2.1⟩

/-! ## C4: the account invariant -/

theorem reserve_ok_inv {db db' : Database} {u : String} {a : Int}
    (h : Database.reserve db u a = .ok db') :
    ∃ user, alookup db.users u = some user ∧ ¬ (user.credits - user.reserved < a) ∧
      db' = db.update u { user with reserved := user.reserved + a } := by
  cases hl : alookup db.users u with
  | none => simp [Database.reserve, hl] at h
  | some user =>
    by_cases hlt : user.credits - user.reserved < a
    · simp [Database.reserve, hl, hlt] at h
    · refine ⟨user, rfl, hlt, ?_⟩
      simp [Database.reserve, hl, hlt] at h
      exact h.symm

theorem unreserve_ok_inv {db db' : Database} {u : String} {a : Int}
    (h : Database.unreserve db u a = .ok db') :
    ∃ user, alookup db.users u = some user ∧
      db' = db.update u { user with reserved := user.reserved - a } := by
  cases hl : alookup db.users u with
  | none => simp [Database.unreserve, hl] at h
  | some user =>
    refine ⟨user, rfl, ?_⟩
    simp [Database.unreserve, hl] at h
    exact h.symm

theorem pay_ok_inv {db db' : Database} {u : String} {a : Int}
    (h : Database.pay db u a = .ok db') :
    ∃ user, alookup db.users u = some user ∧
      db' = db.update u
        { user with reserved := user.reserved - a, credits := user.credits - a } := by
  cases hl : alookup db.users u with
  | none => simp [Database.pay, hl] at h
  | some user =>
    refine ⟨user, rfl, ?_⟩
    simp [Database.pay, hl] at h
    exact h.symm

theorem sumFor_append (l₁ l₂ : List (String × Int)) (u : String) :
    sumFor (l₁ ++ l₂) u = sumFor l₁ u + sumFor l₂ u := by
  induction l₁ with
  | nil => simp [sumFor]
  | cons p l ih =>
    show (if p.1 = u then p.2 else 0) + sumFor (l ++ l₂) u
      = ((if p.1 = u then p.2 else 0) + sumFor l u) + sumFor l₂ u
    rw [ih]
    ring

theorem sumFor_cons_self (u : String) (a : Int) (l : List (String × Int)) :
    sumFor ((u, a) :: l) u = a + sumFor l u := by
  simp [sumFor]

theorem sumFor_cons_ne (u v : String) (a : Int) (l : List (String × Int))
    (hne : u ≠ v) : sumFor ((u, a) :: l) v = sumFor l v := by
  simp [sumFor, hne]

theorem sumFor_nonneg (l : List (String × Int)) (u : String)
    (h : ∀ p ∈ l, 0 ≤ p.2) : 0 ≤ sumFor l u := by
  induction l with
  | nil => simp [sumFor]
  | cons p l ih =>
    have h1 := h p (List.mem_cons_self _ _)
    have h2 := ih (fun q hq => h q (List.mem_cons_of_mem _ hq))
    simp only [sumFor]
    by_cases hp : p.1 = u
    · rw [if_pos hp]; omega
    · rw [if_neg hp]; omega

theorem ledgerInv_step {db db' : Database} {out out' : List (String × Int)}
    (hinv : LedgerInv db out) (hs : ProtoStep (db, out) (db', out')) :
    LedgerInv db' out' := by
  obtain ⟨h1, h2⟩ := hinv
  cases hs with
  | @reserveS _ _ _ u a ha h =>
    obtain ⟨user, hl, hnlt, rfl⟩ := reserve_ok_inv h
    constructor
    · intro v rec hv
      simp only [Database.update] at hv
      by_cases hvu : v = u
      · subst hvu
        rw [alookup_aupdate_self db.users v _ user hl] at hv
        injection hv with hrec
        subst hrec
        obtain ⟨i1, i2, i3⟩ := h1 v user hl
        rw [sumFor_cons_self]
        refine ⟨?_, ?_, ?_⟩ <;> simp <;> omega
      · rw [alookup_aupdate_ne db.users u v _ hvu] at hv
        obtain ⟨i1, i2, i3⟩ := h1 v rec hv
        rw [sumFor_cons_ne u v a out (fun hh => hvu hh.symm)]
        exact ⟨i1, i2, i3⟩
    · intro p hp
      rcases List.mem_cons.mp hp with rfl | hp'
      · exact ha
      · exact h2 p hp'
  | @unreserveS _ _ l₁ l₂ u a h =>
    obtain ⟨user, hl, rfl⟩ := unreserve_ok_inv h
    have hmem : (u, a) ∈ l₁ ++ (u, a) :: l₂ :=
      List.mem_append_right _ (List.mem_cons_self _ _)
    have ha : 0 ≤ a := h2 _ hmem
    have hs1 : 0 ≤ sumFor l₁ u :=
      sumFor_nonneg l₁ u (fun p hp => h2 p (List.mem_append_left _ hp))
    have hs2 : 0 ≤ sumFor l₂ u :=
      sumFor_nonneg l₂ u
        (fun p hp => h2 p (List.mem_append_right _ (List.mem_cons_of_mem _ hp)))
    obtain ⟨i1, i2, i3⟩ := h1 u user hl
    rw [sumFor_append, sumFor_cons_self] at i3
    constructor
    · intro v rec hv
      simp only [Database.update] at hv
      by_cases hvu : v = u
      · subst hvu
        rw [alookup_aupdate_self db.users v _ user hl] at hv
        injection hv with hrec
        subst hrec
        rw [sumFor_append]
        refine ⟨?_, ?_, ?_⟩ <;> simp <;> omega
      · rw [alookup_aupdate_ne db.users u v _ hvu] at hv
        obtain ⟨j1, j2, j3⟩ := h1 v rec hv
        rw [sumFor_append, sumFor_cons_ne u v a l₂ (fun hh => hvu hh.symm)] at j3
        rw [sumFor_append]
        exact ⟨j1, j2, j3⟩
    · intro p hp
      rcases List.mem_append.mp hp with hp' | hp'
      · exact h2 p (List.mem_append_left _ hp')
      · exact h2 p (List.mem_append_right _ (List.mem_cons_of_mem _ hp'))
  | @payS _ _ l₁ l₂ u a h =>
    obtain ⟨user, hl, rfl⟩ := pay_ok_inv h
    have hmem : (u, a) ∈ l₁ ++ (u, a) :: l₂ :=
      List.mem_append_right _ (List.mem_cons_self _ _)
    have ha : 0 ≤ a := h2 _ hmem
    have hs1 : 0 ≤ sumFor l₁ u :=
      sumFor_nonneg l₁ u (fun p hp => h2 p (List.mem_append_left _ hp))
    have hs2 : 0 ≤ sumFor l₂ u :=
      sumFor_nonneg l₂ u
        (fun p hp => h2 p (List.mem_append_right _ (List.mem_cons_of_mem _ hp)))
    obtain ⟨i1, i2, i3⟩ := h1 u user hl
    rw [sumFor_append, sumFor_cons_self] at i3
    constructor
    · intro v rec hv
      simp only [Database.update] at hv
      by_cases hvu : v = u
      · subst hvu
        rw [alookup_aupdate_self db.users v _ user hl] at hv
        injection hv with hrec
        subst hrec
        rw [sumFor_append]
        refine ⟨?_, ?_, ?_⟩ <;> simp <;> omega
      · rw [alookup_aupdate_ne db.users u v _ hvu] at hv
        obtain ⟨j1, j2, j3⟩ := h1 v rec hv
        rw [sumFor_append, sumFor_cons_ne u v a l₂ (fun hh => hvu hh.symm)] at j3
        rw [sumFor_append]
        exact ⟨j1, j2, j3⟩
    · intro p hp
      rcases List.mem_append.mp hp with hp' | hp'
      · exact h2 p (List.mem_append_left _ hp')
      · exact h2 p (List.mem_append_right _ (List.mem_cons_of_mem _ hp'))

theorem ledgerInv_reachable (st : Database × List (String × Int))
    (h : ProtoReachable st) : LedgerInv st.1 st.2 := by
  induction h with
  | init =>
    constructor
    · intro u rec hl
      have hm := alookup_mem _ _ _ hl
      simp [Database.init] at hm
      rcases hm with ⟨rfl, rfl⟩ | ⟨rfl, rfl⟩ | ⟨rfl, rfl⟩ | ⟨rfl, rfl⟩ <;>
        exact ⟨by decide, by decide, rfl⟩
    · intro p hp
      simp at hp
  | step hr hs ih => exact ledgerInv_step ih hs

/-- C4 counterexample: the literal claim fails.  From the seeded initial
state the single ledger operation `unreserve("robert", 1)` succeeds and
produces a reachable state in which robert's record has `reserved = -1`,
violating `0 ≤ reserved`. -/
theorem ledger_invariant_counterexample :
    RawReachable dbAfterBadUnreserve
  ∧ alookup dbAfterBadUnreserve.users "robert" = some ⟨69, -1, "robertHeslo"⟩
  ∧ ¬ (0 ≤ ((⟨69, -1, "robertHeslo"⟩ : UsersDict)).reserved) := by
  refine ⟨RawReachable.step RawReachable.init
    (@RawStep.unreserveS Database.init dbAfterBadUnreserve "robert" 1 (by rfl)),
    by decide, by decide⟩

/-- C4 (amended): `0 ≤ reserved ≤ balance` holds for every principal in
every state reachable from the seeded initial state through ledger
operations used under the gateway's protocol, where each successful
`reserve` has a non-negative amount and each `unreserve`/`pay` resolves one
outstanding previously-reserved amount of the same principal. -/
theorem ledger_invariant_protocol (db : Database) (out : List (String × Int))
    (h : ProtoReachable (db, out)) (u : String) (rec : UsersDict)
    (hl : alookup db.users u = some rec) :
    0 ≤ rec.reserved ∧ rec.reserved ≤ rec.credits := by
  obtain ⟨h1, _⟩ := ledgerInv_reachable _ h
  obtain ⟨i1, i2, _⟩ := h1 u rec hl
  exact ⟨i1, i2⟩

/-- Witness for `ledger_invariant_protocol` at the seeded initial state and
principal robert. -/
theorem ledger_invariant_protocol_witness :
    0 ≤ ((⟨69, 0, "robertHeslo"⟩ : UsersDict)).reserved
  ∧ ((⟨69, 0, "robertHeslo"⟩ : UsersDict)).reserved
      ≤ ((⟨69, 0, "robertHeslo"⟩ : UsersDict)).credits :=
  ledger_invariant_protocol Database.init [] ProtoReachable.init "robert"
    ⟨69, 0, "robertHeslo"⟩ (by decide)

/-! ## The gateway: permit bookkeeping lemmas -/

theorem sget_lookup (s : Semaphores) (u : String) :
    alookup (Semaphores.get s u).2.semaphores u = some (Semaphores.get s u).1 := by
  cases h : alookup s.semaphores u with
  | some v => simp [Semaphores.get, h]
  | none => simp [Semaphores.get, h, alookup]

theorem semRelease_acquire (s : Semaphores) (u : String) (v : Nat)
    (h : alookup s.semaphores u = some v) (hv : v ≠ 0) :
    semRelease ⟨aupdate s.semaphores u (v - 1)⟩ u = s := by
  show (⟨aupdate (aupdate s.semaphores u (v - 1)) u
    ((alookup (aupdate s.semaphores u (v - 1)) u).getD 0 + 1)⟩ : Semaphores) = s
  rw [alookup_aupdate_self s.semaphores u (v - 1) v h]
  show (⟨aupdate (aupdate s.semaphores u (v - 1)) u (v - 1 + 1)⟩ : Semaphores) = s
  rw [aupdate_aupdate, Nat.sub_add_cancel (Nat.one_le_iff_ne_zero.mpr hv),
    aupdate_self s.semaphores u v h]

/-- After `get`, acquiring one permit and releasing it restores the registry
produced by `get`. -/
theorem tts_sems_restore (sems : Semaphores) (u : String)
    (hperm : (Semaphores.get sems u).1 ≠ 0) :
    semRelease
      ⟨aupdate (Semaphores.get sems u).2.semaphores u ((Semaphores.get sems u).1 - 1)⟩ u
      = (Semaphores.get sems u).2 :=
  semRelease_acquire _ u _ (sget_lookup sems u) hperm

theorem update_update_cancel (db : Database) (u : String) (r1 user : UsersDict)
    (h : alookup db.users u = some user) :
    (db.update u r1).update u user = db := by
  show (⟨aupdate (aupdate db.users u r1) u user⟩ : Database) = db
  rw [aupdate_aupdate, aupdate_self db.users u user h]

theorem unreserve_after_reserve (db : Database) (u : String) (a : Int) (user : UsersDict)
    (h : alookup db.users u = some user) :
    Database.unreserve (db.update u { user with reserved := user.reserved + a }) u a
      = .ok db := by
  have hl1 : alookup (aupdate db.users u { user with reserved := user.reserved + a }) u
      = some { user with reserved := user.reserved + a } :=
    alookup_aupdate_self db.users u _ user h
  simp only [Database.unreserve, Database.update, hl1]
  rw [aupdate_aupdate]
  have h3 : user.reserved + a - a = user.reserved := by ring
  rw [h3]
  have hr2 : (⟨user.credits, user.reserved, user.password⟩ : UsersDict) = user := rfl
  rw [hr2, aupdate_self db.users u user h]

theorem pay_after_reserve (db : Database) (u : String) (a : Int) (user : UsersDict)
    (h : alookup db.users u = some user) :
    Database.pay (db.update u { user with reserved := user.reserved + a }) u a
      = .ok (db.update u { user with credits := user.credits - a }) := by
  have hl1 : alookup (aupdate db.users u { user with reserved := user.reserved + a }) u
      = some { user with reserved := user.reserved + a } :=
    alookup_aupdate_self db.users u _ user h
  simp only [Database.pay, Database.update, hl1]
  rw [aupdate_aupdate]
  have h3 : user.reserved + a - a = user.reserved := by ring
  rw [h3]

/-! ## C2: reservation failure aborts the request -/

/-- C2: when the reservation fails, the gateway propagates exactly that
failure, the ledger is unchanged, the permit is released (the registry
equals the one produced by `get`), the trace contains only the reserve
call, and the external call is never attempted. -/
theorem tts_reserve_failure_aborts (db : Database) (sems : Semaphores)
    (u tx : String) (resp : ExtResponse) (rng : Nat → Fin 26) (e : DbError)
    (hperm : (Semaphores.get sems u).1 ≠ 0)
    (hres : Database.reserve db u ((reFindallCount tx.data : Int)) = .error e) :
    (App.text_to_speech db sems u tx resp rng).outcome = .raised (.db e)
  ∧ (App.text_to_speech db sems u tx resp rng).db = db
  ∧ (App.text_to_speech db sems u tx resp rng).sems = (Semaphores.get sems u).2
  ∧ (App.text_to_speech db sems u tx resp rng).calls
      = [.reserveCall u ((reFindallCount tx.data : Int))]
  ∧ (∀ t, GatewayEvent.externalCall t ∉ (App.text_to_speech db sems u tx resp rng).calls) := by
  have hred : App.text_to_speech db sems u tx resp rng =
      { outcome := .raised (.db e), db := db,
        sems := semRelease
          ⟨aupdate (Semaphores.get sems u).2.semaphores u ((Semaphores.get sems u).1 - 1)⟩ u,
        calls := [.reserveCall u ((reFindallCount tx.data : Int))] } := by
    simp only [App.text_to_speech, if_neg hperm, hres]
  rw [hred, tts_sems_restore sems u hperm]
  refine ⟨rfl, rfl, rfl, rfl, ?_⟩
  intro t
  simp

/-- Witness for `tts_reserve_failure_aborts`: karel (1 credit) submits the
2-token text `"a b"`; the call fails with `CreditsException`, the ledger is
unchanged (Scenario 1 of the spec). -/
theorem tts_reserve_failure_aborts_witness :
    (App.text_to_speech Database.init ⟨[]⟩ "karel" "a b" ⟨200, "", []⟩ (fun _ => 0)).outcome
        = .raised (.db (.creditsErr "User karel has less credits than required 2"))
  ∧ (App.text_to_speech Database.init ⟨[]⟩ "karel" "a b" ⟨200, "", []⟩ (fun _ => 0)).db
        = Database.init := by
  have h := tts_reserve_failure_aborts Database.init ⟨[]⟩ "karel" "a b" ⟨200, "", []⟩
    (fun _ => 0) (.creditsErr "User karel has less credits than required 2")
    (by decide) (by rfl)
  exact ⟨h.1, h.2.1⟩

/-! ## C5: the settle operation -/

/-- C5: for an existing principal, `Database.pay` atomically subtracts the
amount from both `reserved` and `credits`; and in the gateway a `pay` call
appears in the trace only when the external call returned status 200. -/
theorem pay_settles_after_success (db : Database) (u : String) (a : Int) (user : UsersDict)
    (h : alookup db.users u = some user) :
    Database.pay db u a
        = .ok (db.update u
            { user with reserved := user.reserved - a, credits := user.credits - a })
  ∧ alookup (db.update u
        { user with reserved := user.reserved - a, credits := user.credits - a }).users u
      = some { user with reserved := user.reserved - a, credits := user.credits - a }
  ∧ (∀ (db₀ : Database) (sems : Semaphores) (uname tx : String) (resp : ExtResponse)
      (rng : Nat → Fin 26) (u' : String) (a' : Int),
      GatewayEvent.payCall u' a' ∈ (App.text_to_speech db₀ sems uname tx resp rng).calls →
      resp.status_code = 200) := by
  refine ⟨by simp [Database.pay, h], alookup_aupdate_self db.users u _ user h, ?_⟩
  intro db₀ sems uname tx resp rng u' a' hmem
  by_cases h0 : (Semaphores.get sems uname).1 = 0
  · simp only [App.text_to_speech, if_pos h0] at hmem
    simp at hmem
  · simp only [App.text_to_speech, if_neg h0] at hmem
    cases hres : Database.reserve db₀ uname ((reFindallCount tx.data : Int)) with
    | error e =>
      simp only [hres] at hmem
      simp at hmem
    | ok db1 =>
      simp only [hres] at hmem
      by_cases hst : resp.status_code ≠ 200
      · rw [if_pos hst] at hmem
        cases hun : Database.unreserve db1 uname ((reFindallCount tx.data : Int)) with
        | error e =>
          simp only [hun] at hmem
          simp at hmem
        | ok db2 =>
          simp only [hun] at hmem
          simp at hmem
      · exact not_ne_iff.mp hst

/-- Witness for `pay_settles_after_success`: paying 2 from robert's seeded
record subtracts 2 from both fields. -/
theorem pay_settles_after_success_witness :
    Database.pay Database.init "robert" 2
      = .ok (Database.init.update "robert" ⟨67, -2, "robertHeslo"⟩) :=
  (pay_settles_after_success Database.init "robert" 2 ⟨69, 0, "robertHeslo"⟩ (by decide)).1

/-! ## C6: external failure rolls back the reservation -/

/-- C6: when the reservation succeeds but the external call returns a
non-success status, the gateway unreserves the same cost it reserved (the
ledger returns exactly to its pre-request state), releases the permit, and
raises `ElevenLabsException` carrying the collaborator's diagnostic text and
the original input; the trace is reserve, external call, unreserve with the
same cost. -/
theorem tts_external_failure_rollback (db : Database) (sems : Semaphores)
    (u tx : String) (resp : ExtResponse) (rng : Nat → Fin 26) (user : UsersDict)
    (hperm : (Semaphores.get sems u).1 ≠ 0)
    (huser : alookup db.users u = some user)
    (hok : ¬ (user.credits - user.reserved < (reFindallCount tx.data : Int)))
    (hfail : resp.status_code ≠ 200) :
    (App.text_to_speech db sems u tx resp rng).outcome
        = .raised (.elevenLabs (elevenLabsMsg tx resp.text))
  ∧ (App.text_to_speech db sems u tx resp rng).db = db
  ∧ (App.text_to_speech db sems u tx resp rng).sems = (Semaphores.get sems u).2
  ∧ (App.text_to_speech db sems u tx resp rng).calls
      = [.reserveCall u (reFindallCount tx.data : Int), .externalCall tx,
         .unreserveCall u (reFindallCount tx.data : Int)] := by
  have hres : Database.reserve db u (reFindallCount tx.data : Int)
      = .ok (db.update u
          { user with reserved := user.reserved + (reFindallCount tx.data : Int) }) := by
    simp [Database.reserve, huser, hok]
  have hun := unreserve_after_reserve db u (reFindallCount tx.data : Int) user huser
  have hred : App.text_to_speech db sems u tx resp rng =
      { outcome := .raised (.elevenLabs (elevenLabsMsg tx resp.text)), db := db,
        sems := semRelease
          ⟨aupdate (Semaphores.get sems u).2.semaphores u ((Semaphores.get sems u).1 - 1)⟩ u,
        calls := [.reserveCall u (reFindallCount tx.data : Int), .externalCall tx,
                  .unreserveCall u (reFindallCount tx.data : Int)] } := by
    simp only [App.text_to_speech, if_neg hperm, hres, if_pos hfail, hun]
  rw [hred, tts_sems_restore sems u hperm]
  exact ⟨rfl, rfl, rfl, rfl⟩

/-- Witness for `tts_external_failure_rollback`: robert (69 credits) submits
the 2-token text `"a b"`, the external call fails with status 500; the
caller receives the `ElevenLabsException` and the ledger is unchanged
(Scenario 2 of the spec). -/
theorem tts_external_failure_rollback_witness :
    (App.text_to_speech Database.init ⟨[]⟩ "robert" "a b" ⟨500, "boom", []⟩
        (fun _ => 0)).outcome
      = .raised (.elevenLabs (elevenLabsMsg "a b" "boom"))
  ∧ (App.text_to_speech Database.init ⟨[]⟩ "robert" "a b" ⟨500, "boom", []⟩
        (fun _ => 0)).db
      = Database.init := by
  have h := tts_external_failure_rollback Database.init ⟨[]⟩ "robert" "a b"
    ⟨500, "boom", []⟩ (fun _ => 0) ⟨69, 0, "robertHeslo"⟩
    (by decide) (by decide) (by decide) (by decide)
  exact ⟨h.1, h.2.1⟩

/-! ## C7: external success settles exactly the cost -/

theorem lowercase_all : ∀ k : Fin 26, (Char.ofNat ('a'.toNat + k.val)).isLower = true := by
  decide

/-- C7: when the reservation succeeds and the external call returns status
200, the gateway settles exactly the cost — the principal's balance
decreases by the cost and `reserved` returns to its pre-request value,
regardless of the returned payload — releases the permit, and returns the
generated identifier (ten random lowercase characters plus the fixed `.mp3`
extension) together with the response's chunk stream. -/
theorem tts_external_success_settles (db : Database) (sems : Semaphores)
    (u tx : String) (resp : ExtResponse) (rng : Nat → Fin 26) (user : UsersDict)
    (hperm : (Semaphores.get sems u).1 ≠ 0)
    (huser : alookup db.users u = some user)
    (hok : ¬ (user.credits - user.reserved < (reFindallCount tx.data : Int)))
    (hsucc : resp.status_code = 200) :
    (App.text_to_speech db sems u tx resp rng).outcome
        = .ok (genFilename rng) resp.chunks
  ∧ (App.text_to_speech db sems u tx resp rng).db
      = db.update u { user with credits := user.credits - (reFindallCount tx.data : Int) }
  ∧ alookup (App.text_to_speech db sems u tx resp rng).db.users u
      = some { user with credits := user.credits - (reFindallCount tx.data : Int) }
  ∧ (App.text_to_speech db sems u tx resp rng).sems = (Semaphores.get sems u).2
  ∧ (App.text_to_speech db sems u tx resp rng).calls
      = [.reserveCall u (reFindallCount tx.data : Int), .externalCall tx,
         .payCall u (reFindallCount tx.data : Int)]
  ∧ (genFilename rng).data = filenameChars rng ++ ".mp3".data
  ∧ (filenameChars rng).length = 10
  ∧ (∀ ch ∈ filenameChars rng, ch.isLower = true) := by
  have hres : Database.reserve db u (reFindallCount tx.data : Int)
      = .ok (db.update u
          { user with reserved := user.reserved + (reFindallCount tx.data : Int) }) := by
    simp [Database.reserve, huser, hok]
  have hpay := pay_after_reserve db u (reFindallCount tx.data : Int) user huser
  have hstat : ¬ (resp.status_code ≠ 200) := not_ne_iff.mpr hsucc
  have hred : App.text_to_speech db sems u tx resp rng =
      { outcome := .ok (genFilename rng) resp.chunks,
        db := db.update u
          { user with credits := user.credits - (reFindallCount tx.data : Int) },
        sems := semRelease
          ⟨aupdate (Semaphores.get sems u).2.semaphores u ((Semaphores.get sems u).1 - 1)⟩ u,
        calls := [.reserveCall u (reFindallCount tx.data : Int), .externalCall tx,
                  .payCall u (reFindallCount tx.data : Int)] } := by
    simp only [App.text_to_speech, if_neg hperm, hres, if_neg hstat, hpay]
  rw [hred, tts_sems_restore sems u hperm]
  refine ⟨rfl, rfl, alookup_aupdate_self db.users u _ user huser, rfl, rfl, rfl,
    by simp [filenameChars], ?_⟩
  intro ch hch
  simp only [filenameChars, List.mem_map] at hch
  obtain ⟨i, _, rfl⟩ := hch
  exact lowercase_all (rng i)

/-- Witness for `tts_external_success_settles`: robert (69 credits) submits
the 2-token text `"a b"`, the external call succeeds; robert's balance
becomes 67 and `reserved` returns to 0 (Scenario 3 of the spec). -/
theorem tts_external_success_settles_witness :
    (App.text_to_speech Database.init ⟨[]⟩ "robert" "a b" ⟨200, "", [[65]]⟩
        (fun _ => 0)).outcome
      = .ok (genFilename (fun _ => 0)) [[65]]
  ∧ alookup (App.text_to_speech Database.init ⟨[]⟩ "robert" "a b" ⟨200, "", [[65]]⟩
        (fun _ => 0)).db.users "robert"
      = some ⟨67, 0, "robertHeslo"⟩ := by
  have h := tts_external_success_settles Database.init ⟨[]⟩ "robert" "a b"
    ⟨200, "", [[65]]⟩ (fun _ => 0) ⟨69, 0, "robertHeslo"⟩
    (by decide) (by decide) (by decide) (by decide)
  exact ⟨h.1, h.2.2.1⟩
